import Mathlib

/-!
Verification of the disk-propagation simulation engine
(`diskflowsim/simulation.py`) against its natural-language specification.

The Python class `DiskPropagation` is shallowly embedded as a Lean
structure.  Machine floats are modelled as exact rationals, numpy arrays
as nested lists, and the stateful boundary generator
(`initial_annulus_generator`) as a pure stream `gen : ℕ → SegVec`
together with a cursor counting how many values have been pulled.
Python exceptions (numpy `IndexError` on an out-of-range read or write,
`ValueError` on a negative allocation size) are modelled by `Option`:
a raised exception is `none`.
-/

attribute [local semireducible] Rat.mul Rat.add Rat.inv Rat.sub

/-- A segment vector: one row of reals, one value per azimuthal segment. -/
abbrev SegVec : Type := List ℚ

/-- A 2-D snapshot of the disk: one `SegVec` per annulus. -/
abbrev Snapshot : Type := List SegVec

/-- The state of a `DiskPropagation` object.  Fields mirror the Python
attributes; `gen`/`cursor` model the attached boundary generator
(`self.initial_annulus_generator`) as a stream plus a consumption
position.  `state` / `state_` are `none` when the attribute is `None`. -/
structure DiskPropagation where
  r_in : ℤ
  r_out : ℤ
  num_anulus : ℤ
  num_segments : ℤ
  total_convolve_rate : ℚ
  time : ℕ
  initial_state : Option Snapshot
  state : Option (List Snapshot)
  state_ : Option (List Snapshot)
  gen : ℕ → SegVec
  cursor : ℕ

/-- The constructor `DiskPropagation.__init__`.  The boundary stream
`gen` models the generator attached to the instance (assigned by
Python's `initialize`, or directly by the caller before running). -/
def construct (r_in r_out : ℤ) (total_convolve_rate : ℚ) (gen : ℕ → SegVec) :
    DiskPropagation :=
  { r_in := r_in
    r_out := r_out
    num_anulus := r_out - r_in + 1
    num_segments := r_out
    total_convolve_rate := total_convolve_rate
    time := 0
    initial_state := none
    state := none
    state_ := none
    gen := gen
    cursor := 0 }

/-- One row of `signal.convolve2d(x, [[rate/2, rate/2]], "same")`:
`out[s] = rate/2 * (row[s] + row[s-1])` with the out-of-range tap
`row[-1]` treated as zero.  Implemented by zipping the row with itself
shifted right by one. -/
def smoothRow (rate : ℚ) (row : List ℚ) : List ℚ :=
  (row.zip (0 :: row)).map (fun p => rate / 2 * (p.1 + p.2))

/-- `signal.convolve2d(current_state, weights, "same")` where `weights`
has shape (1,2): each annulus row is smoothed independently. -/
def convolveSame (rate : ℚ) (x : Snapshot) : Snapshot :=
  x.map (smoothRow rate)

/-- `np.roll(x, shift=1, axis=0)`: the last annulus row wraps around to
position 0 and every other row moves down by one. -/
def roll1 (x : Snapshot) : Snapshot :=
  match x.getLast? with
  | none => []
  | some l => l :: x.dropLast

/-- `next_state[0] = v`: overwrite annulus row 0. -/
def setRow0 (v : SegVec) : Snapshot → Snapshot
  | [] => []
  | _ :: t => v :: t

/-- `DiskPropagation._update`: smooth, circularly shift one annulus
inward, then overwrite annulus 0 with a fresh pull from the boundary
generator.  Returns the new snapshot together with the advanced cursor
(the pull consumes one generator value). -/
def _update (rate : ℚ) (gen : ℕ → SegVec) (current_state : Snapshot) (c : ℕ) :
    Snapshot × ℕ :=
  (setRow0 (gen c) (roll1 (convolveSame rate current_state)), c + 1)

/-- The sub-stepping function iterated inside one recorded step. -/
def updStep (rate : ℚ) (gen : ℕ → SegVec) : Snapshot × ℕ → Snapshot × ℕ :=
  fun q => _update rate gen q.1 q.2

/-- Number of `_update` applications per recorded step:
the mandatory first one plus `range(flow_velocity - 1)` extra ones,
i.e. `1 + max(flow_velocity - 1, 0)`. -/
def stepApps (flow_velocity : ℤ) : ℕ :=
  1 + (flow_velocity - 1).toNat

/-- `np.triu(np.ones((A, S)))`: 1 on and above the diagonal, 0 below. -/
def trim_matrix (A S : ℕ) : Snapshot :=
  (List.range A).map (fun a => (List.range S).map (fun s => if a ≤ s then (1 : ℚ) else 0))

/-- Elementwise product of two equally-shaped rows. -/
def rowMul (r m : List ℚ) : List ℚ :=
  (r.zip m).map (fun q => q.1 * q.2)

/-- Elementwise product of two equally-shaped snapshots. -/
def snapMul (x m : Snapshot) : Snapshot :=
  (x.zip m).map (fun p => rowMul p.1 p.2)

/-- `DiskPropagation._extract_state`: multiply every stored timestep by
the upper-triangular mask (numpy broadcast over the time axis). -/
def _extract_state (A S : ℕ) (st : List Snapshot) : List Snapshot :=
  st.map (fun snap => snapMul snap (trim_matrix A S))

/-- The zero-filled history array `np.zeros((len, A, S))`. -/
def zerosState (len A S : ℕ) : List Snapshot :=
  List.replicate len (List.replicate A (List.replicate S (0 : ℚ)))

/-- Seeding of `state[0]` in `run_simulation`: a stored `initial_state`
is used as-is and consumes nothing; otherwise one generator value is
pulled and numpy-broadcast over all annuli.  Returns the seed snapshot
and the cursor after seeding. -/
def seedPair (d : DiskPropagation) : Snapshot × ℕ :=
  match d.initial_state with
  | some s => (s, d.cursor)
  | none => (List.replicate d.num_anulus.toNat (d.gen d.cursor), d.cursor + 1)

/-- The main loop of `run_simulation`, `k` iterations left.  Each
iteration reads `state[time]` (`none` = `IndexError` when out of
range), applies `_update` `stepApps fv` times, increments `time` and
writes the result at the new `time` (`none` = `IndexError` when out of
range).  Returns the final history, `time` and cursor. -/
def runLoop (rate : ℚ) (gen : ℕ → SegVec) (fv : ℤ) :
    ℕ → List Snapshot → ℕ → ℕ → Option (List Snapshot × ℕ × ℕ)
  | 0, st, t, c => some (st, t, c)
  | k + 1, st, t, c =>
    match st[t]? with
    | none => none
    | some cur =>
      if t + 1 < st.length then
        runLoop rate gen fv k
          (st.set (t + 1) ((updStep rate gen)^[stepApps fv] (cur, c)).1)
          (t + 1) ((updStep rate gen)^[stepApps fv] (cur, c)).2
      else none

/-- `DiskPropagation.run_simulation`.  Allocates a fresh zero history of
shape `(num_steps+1, num_anulus, num_segments)` (`none` on a negative
dimension, numpy `ValueError`), seeds row 0 (`none` when the history
has zero length, numpy `IndexError`), runs the loop, and finally
recomputes `state_` from the whole history. -/
def run_simulation (d : DiskPropagation) (num_steps : ℤ) (flow_velocity : ℤ) :
    Option DiskPropagation :=
  if num_steps + 1 < 0 ∨ d.num_anulus < 0 ∨ d.num_segments < 0 then none
  else if (num_steps + 1).toNat = 0 then none
  else
    let st1 :=
      (zerosState (num_steps + 1).toNat d.num_anulus.toNat d.num_segments.toNat).set
        0 (seedPair d).1
    match runLoop d.total_convolve_rate d.gen flow_velocity num_steps.toNat st1
        d.time (seedPair d).2 with
    | none => none
    | some r =>
      some { d with
              time := r.2.1
              cursor := r.2.2
              state := some r.1
              state_ := some (_extract_state d.num_anulus.toNat d.num_segments.toNat r.1) }

/-- `DiskPropagation.initialize` (embedded under a distinct Lean name):
attach the generator produced by the factory, run the warm-up
`run_simulation(num_anulus)`, promote the last produced snapshot to
`initial_state` and reset `time` to 0. -/
def initDisk (d : DiskPropagation) (factory : ℤ → ℕ → SegVec) :
    Option DiskPropagation :=
  let d1 := { d with gen := factory d.num_segments, cursor := 0 }
  match run_simulation d1 d1.num_anulus 1 with
  | none => none
  | some d2 =>
    match d2.state with
    | none => none
    | some st =>
      match st.getLast? with
      | none => none
      | some last => some { d2 with initial_state := some last, time := 0 }

/-- `DiskPropagation.reset`: clear `time`, `state` and `state_`,
touching nothing else. -/
def reset (d : DiskPropagation) : DiskPropagation :=
  { d with time := 0, state := none, state_ := none }

/-- Shape predicate: a snapshot has `A` rows of `S` entries each. -/
def snapShape (A S : ℕ) (x : Snapshot) : Prop :=
  x.length = A ∧ ∀ r ∈ x, r.length = S

/-- Entry `st[t][a][s]` of a history, defaulting to 0 out of range. -/
def entryAt (st : List Snapshot) (t a s : ℕ) : ℚ :=
  ((st.getD t []).getD a []).getD s 0

/-- Entry `x[a][s]` of a snapshot, defaulting to 0 out of range. -/
def snapEntry (x : Snapshot) (a s : ℕ) : ℚ :=
  (x.getD a []).getD s 0

/-- The concrete scenario instance used throughout: `r_in = 1`,
`r_out = 3` (hence 3 annuli, 3 segments), `total_convolve_rate = 0`,
boundary source yielding `[1,1,1]` on every pull, no prior
initialization. -/
def demoDisk : DiskPropagation :=
  construct 1 3 0 (fun _ => [1, 1, 1])

/-- Each `_update` application advances the cursor by exactly one. -/
theorem updStep_snd (rate : ℚ) (gen : ℕ → SegVec) (p : Snapshot × ℕ) :
    (updStep rate gen p).2 = p.2 + 1 := rfl

/-- `m` iterated `_update` applications advance the cursor by `m`. -/
theorem updStep_iterate_snd (rate : ℚ) (gen : ℕ → SegVec) :
    ∀ (m : ℕ) (p : Snapshot × ℕ), ((updStep rate gen)^[m] p).2 = p.2 + m := by
  intro m
  induction m with
  | zero => intro p; rfl
  | succ m ih =>
    intro p
    rw [Function.iterate_succ_apply, ih (updStep rate gen p), updStep_snd]
    omega

/-- Master characterization of a successful `runLoop` run: `time`
advances by the iteration count, the cursor by `stepApps fv` per
iteration, the history length is unchanged, slots up to the starting
`time` are untouched, and each visited slot `t+j+1` holds the result of
`stepApps fv` chained `_update` applications on the previous slot. -/
theorem runLoop_spec (rate : ℚ) (gen : ℕ → SegVec) (fv : ℤ) :
    ∀ (k : ℕ) (st : List Snapshot) (t c : ℕ) (st' : List Snapshot) (t' c' : ℕ),
      runLoop rate gen fv k st t c = some (st', t', c') →
      t' = t + k ∧ c' = c + k * stepApps fv ∧ st'.length = st.length ∧
      (∀ i, i ≤ t → st'[i]? = st[i]?) ∧
      (∀ j, j < k → ∃ x, st'[t + j]? = some x ∧
        st'[t + j + 1]? =
          some ((updStep rate gen)^[stepApps fv] (x, c + j * stepApps fv)).1) := by
  intro k
  induction k with
  | zero =>
    intro st t c st' t' c' h
    simp only [runLoop, Option.some.injEq, Prod.mk.injEq] at h
    obtain ⟨h1, h2, h3⟩ := h
    subst h1; subst h2; subst h3
    exact ⟨by omega, by simp, rfl, fun i _ => rfl, fun j hj => absurd hj (by omega)⟩
  | succ k ih =>
    intro st t c st' t' c' h
    simp only [runLoop] at h
    split at h
    · exact absurd h (by simp)
    · rename_i cur hread
      split at h
      · rename_i hlt
        obtain ⟨ht', hc', hlen, hframe, hsteps⟩ := ih _ _ _ _ _ _ h
        have hc2 : ((updStep rate gen)^[stepApps fv] (cur, c)).2 = c + stepApps fv := by
          rw [updStep_iterate_snd]
        refine ⟨by omega, ?_, ?_, ?_, ?_⟩
        · rw [hc', hc2, Nat.succ_mul]; omega
        · rw [hlen, List.length_set]
        · intro i hi
          rw [hframe i (by omega), List.getElem?_set_ne (by omega)]
        · intro j hj
          cases j with
          | zero =>
            refine ⟨cur, ?_, ?_⟩
            · rw [Nat.add_zero, hframe t (by omega),
                List.getElem?_set_ne (by omega), hread]
            · rw [Nat.add_zero, hframe (t + 1) (by omega),
                List.getElem?_set_self hlt]
              simp
          | succ j =>
            obtain ⟨x, hx1, hx2⟩ := hsteps j (by omega)
            refine ⟨x, ?_, ?_⟩
            · rw [show t + (j + 1) = t + 1 + j from by omega]; exact hx1
            · rw [show t + (j + 1) + 1 = t + 1 + j + 1 from by omega,
                show c + (j + 1) * stepApps fv =
                  ((updStep rate gen)^[stepApps fv] (cur, c)).2 + j * stepApps fv from by
                    rw [hc2, Nat.succ_mul]; omega]
              exact hx2
      · exact absurd h (by simp)

/-- `runLoop` depends on `flow_velocity` only through `stepApps`. -/
theorem runLoop_congr (rate : ℚ) (gen : ℕ → SegVec) (fv fv' : ℤ)
    (hfv : stepApps fv = stepApps fv') :
    ∀ (k : ℕ) (st : List Snapshot) (t c : ℕ),
      runLoop rate gen fv k st t c = runLoop rate gen fv' k st t c := by
  intro k
  induction k with
  | zero => intro st t c; rfl
  | succ k ih =>
    intro st t c
    simp only [runLoop, hfv]
    cases st[t]? with
    | none => rfl
    | some cur =>
      by_cases hlt : t + 1 < st.length
      · simp only [if_pos hlt, ih]
      · simp only [if_neg hlt]

/-- Smoothing a row preserves its length (mode "same"). -/
theorem smoothRow_length (rate : ℚ) (row : List ℚ) :
    (smoothRow rate row).length = row.length := by
  simp [smoothRow]

/-- Rolling preserves the number of annulus rows. -/
theorem roll1_length (x : Snapshot) : (roll1 x).length = x.length := by
  cases hx : x.getLast? with
  | none =>
    have : x = [] := List.getLast?_eq_none_iff.mp hx
    simp [roll1, hx, this]
  | some l =>
    have hne : x ≠ [] := by
      intro he
      rw [he] at hx
      exact absurd hx (by simp)
    have : 1 ≤ x.length := List.length_pos.mpr hne
    simp [roll1, hx]
    omega

/-- Every row of the rolled snapshot is a row of the original. -/
theorem roll1_mem (x : Snapshot) (r : SegVec) (hr : r ∈ roll1 x) : r ∈ x := by
  cases hx : x.getLast? with
  | none =>
    rw [roll1, hx] at hr
    exact absurd hr (by simp)
  | some l =>
    rw [roll1, hx] at hr
    cases hr with
    | head => exact List.mem_of_getLast?_eq_some hx
    | tail _ hr => exact List.dropLast_subset _ hr

/-- `_update` preserves the snapshot shape, given that the generator
honors the segment-vector length contract. -/
theorem update_shape (rate : ℚ) (gen : ℕ → SegVec) (A S : ℕ)
    (hgen : ∀ c, (gen c).length = S) (x : Snapshot) (c : ℕ)
    (hx : snapShape A S x) : snapShape A S (_update rate gen x c).1 := by
  obtain ⟨hlen, hrows⟩ := hx
  have hcs : snapShape A S (convolveSame rate x) := by
    refine ⟨by simp [convolveSame, hlen], ?_⟩
    intro r hr
    rw [convolveSame, List.mem_map] at hr
    obtain ⟨r0, hr0, hr0e⟩ := hr
    rw [← hr0e, smoothRow_length]
    exact hrows r0 hr0
  have hroll : snapShape A S (roll1 (convolveSame rate x)) := by
    refine ⟨by rw [roll1_length]; exact hcs.1, ?_⟩
    intro r hr
    exact hcs.2 r (roll1_mem _ r hr)
  rw [_update]
  cases hy : roll1 (convolveSame rate x) with
  | nil => rw [hy] at hroll; exact ⟨by simpa [setRow0] using hroll.1, by simp [setRow0]⟩
  | cons r0 ys =>
    rw [hy] at hroll
    refine ⟨by simpa [setRow0] using hroll.1, ?_⟩
    intro r hr
    rw [setRow0] at hr
    cases hr with
    | head => exact hgen c
    | tail _ hr => exact hroll.2 r (List.mem_cons_of_mem _ hr)

/-- Iterated `_update` applications preserve the snapshot shape. -/
theorem updStep_iterate_shape (rate : ℚ) (gen : ℕ → SegVec) (A S : ℕ)
    (hgen : ∀ c, (gen c).length = S) :
    ∀ (m : ℕ) (p : Snapshot × ℕ), snapShape A S p.1 →
      snapShape A S ((updStep rate gen)^[m] p).1 := by
  intro m
  induction m with
  | zero => intro p hp; exact hp
  | succ m ih =>
    intro p hp
    rw [Function.iterate_succ_apply]
    exact ih (updStep rate gen p) (update_shape rate gen A S hgen p.1 p.2 hp)

/-- A successful `runLoop` preserves the shape of every history slice. -/
theorem runLoop_shape (rate : ℚ) (gen : ℕ → SegVec) (fv : ℤ) (A S : ℕ)
    (hgen : ∀ c, (gen c).length = S) :
    ∀ (k : ℕ) (st : List Snapshot) (t c : ℕ) (st' : List Snapshot) (t' c' : ℕ),
      runLoop rate gen fv k st t c = some (st', t', c') →
      (∀ x ∈ st, snapShape A S x) → ∀ x ∈ st', snapShape A S x := by
  intro k
  induction k with
  | zero =>
    intro st t c st' t' c' h hst
    simp only [runLoop, Option.some.injEq, Prod.mk.injEq] at h
    obtain ⟨h1, _, _⟩ := h
    subst h1
    exact hst
  | succ k ih =>
    intro st t c st' t' c' h hst
    simp only [runLoop] at h
    split at h
    · exact absurd h (by simp)
    · rename_i cur hread
      split at h
      · rename_i hlt
        refine ih _ _ _ _ _ _ h ?_
        intro x hx
        cases List.mem_or_eq_of_mem_set hx with
        | inl hmem => exact hst x hmem
        | inr heq =>
          rw [heq]
          exact updStep_iterate_shape rate gen A S hgen _ (cur, c)
            (hst cur (List.getElem?_mem hread))
      · exact absurd h (by simp)

/-- Characterization of a successful `run_simulation` call: the final
object's `state`, `state_`, `time` and `cursor` come from a successful
`runLoop` on the seeded zero history, the guards passed, and the
configuration fields are untouched. -/
theorem run_simulation_some (d : DiskPropagation) (n fv : ℤ) (d' : DiskPropagation)
    (h : run_simulation d n fv = some d') :
    ∃ stF,
      runLoop d.total_convolve_rate d.gen fv n.toNat
        ((zerosState (n + 1).toNat d.num_anulus.toNat d.num_segments.toNat).set 0
          (seedPair d).1) d.time (seedPair d).2 = some (stF, d'.time, d'.cursor) ∧
      d'.state = some stF ∧
      d'.state_ = some (_extract_state d.num_anulus.toNat d.num_segments.toNat stF) ∧
      (0 : ℤ) ≤ n + 1 ∧ (n + 1).toNat ≠ 0 ∧
      0 ≤ d.num_anulus ∧ 0 ≤ d.num_segments ∧
      d'.r_in = d.r_in ∧ d'.r_out = d.r_out ∧ d'.num_anulus = d.num_anulus ∧
      d'.num_segments = d.num_segments ∧
      d'.total_convolve_rate = d.total_convolve_rate ∧
      d'.initial_state = d.initial_state ∧ d'.gen = d.gen := by
  simp only [run_simulation] at h
  split at h
  · exact absurd h (by simp)
  · rename_i hguard
    split at h
    · exact absurd h (by simp)
    · rename_i hlen0
      split at h
      · exact absurd h (by simp)
      · rename_i r hr
        simp only [Option.some.injEq] at h
        subst h
        push_neg at hguard
        exact ⟨r.1, hr, rfl, rfl, by omega, hlen0, hguard.2.1, hguard.2.2,
          rfl, rfl, rfl, rfl, rfl, rfl, rfl⟩

/-- `next_state[0] = v` keeps the number of rows. -/
theorem setRow0_length (v : SegVec) (y : Snapshot) :
    (setRow0 v y).length = y.length := by
  cases y <;> rfl

/-- On a nonempty snapshot, row 0 after the overwrite is `v`. -/
theorem setRow0_head (v : SegVec) (y : Snapshot) (hy : y ≠ []) :
    (setRow0 v y)[0]? = some v := by
  cases y with
  | nil => exact absurd rfl hy
  | cons a t => simp [setRow0]

/-- Rows other than 0 are untouched by the overwrite. -/
theorem setRow0_tail (v : SegVec) (y : Snapshot) (b : ℕ) :
    (setRow0 v y)[b + 1]? = y[b + 1]? := by
  cases y with
  | nil => rfl
  | cons a t => rfl

/-- After the roll, position 0 holds the former last annulus row. -/
theorem roll1_head (y : Snapshot) (hy : y ≠ []) : (roll1 y)[0]? = y.getLast? := by
  cases hl : y.getLast? with
  | none => exact absurd (List.getLast?_eq_none_iff.mp hl) hy
  | some l => rw [roll1, hl]; simp

/-- After the roll, position `b+1` holds the former row `b`. -/
theorem roll1_tail (y : Snapshot) (b : ℕ) (hb : b + 1 < y.length) :
    (roll1 y)[b + 1]? = y[b]? := by
  cases hl : y.getLast? with
  | none =>
    rw [List.getLast?_eq_none_iff.mp hl] at hb
    simp at hb
  | some l =>
    rw [roll1, hl, List.getElem?_cons_succ, List.getElem?_dropLast, if_pos (by omega)]

/-- Entry `s` of a smoothed row is `rate/2 * (row[s] + row[s-1])`, the
out-of-range tap `row[-1]` being 0. -/
theorem smoothRow_entry (rate : ℚ) (row : List ℚ) (s : ℕ) (hs : s < row.length) :
    (smoothRow rate row)[s]? =
      some (rate / 2 * (row.getD s 0 + if s = 0 then 0 else row.getD (s - 1) 0)) := by
  have hz : (row.zip (0 :: row))[s]? =
      some (row.getD s 0, if s = 0 then 0 else row.getD (s - 1) 0) := by
    rw [List.getElem?_zip_eq_some]
    constructor
    · rw [List.getD_eq_getElem?_getD, List.getElem?_eq_getElem hs]; rfl
    · cases s with
      | zero => simp
      | succ s =>
        have hs' : s < row.length := by omega
        simp [List.getElem?_cons_succ, List.getD_eq_getElem?_getD,
          List.getElem?_eq_getElem hs']
  rw [smoothRow, List.getElem?_map, hz]
  rfl

/-- Row `a+1` of the updated snapshot is the smoothed former row `a`. -/
theorem update_row_succ (rate : ℚ) (gen : ℕ → SegVec) (x : Snapshot) (c : ℕ)
    (a : ℕ) (ha : a + 1 < x.length) :
    (_update rate gen x c).1[a + 1]? = some (smoothRow rate (x.getD a [])) := by
  rw [_update]
  rw [setRow0_tail, roll1_tail _ a (by simp [convolveSame]; omega),
    convolveSame, List.getElem?_map, List.getElem?_eq_getElem (show a < x.length by omega)]
  rw [List.getD_eq_getElem?_getD, List.getElem?_eq_getElem (show a < x.length by omega)]
  rfl

/-- Claim C6: each `_update` invocation (1) smooths each annulus row
with the 2-tap kernel `[rate/2, rate/2]` along the segment axis with
same-size boundary handling, (2) circularly shifts rows one position
along the annulus axis (row `a` moves to `a+1`, the last row wrapping
into position 0), and (3) overwrites the row at annulus 0 with a
freshly pulled segment vector; it advances the boundary generator by
exactly one pull.  The embedding is purely functional, so the input
snapshot itself is never modified. -/
theorem update_full_spec (rate : ℚ) (gen : ℕ → SegVec) (x : Snapshot) (c : ℕ)
    (hx : x ≠ []) :
    (_update rate gen x c).2 = c + 1 ∧
    (_update rate gen x c).1.length = x.length ∧
    (_update rate gen x c).1[0]? = some (gen c) ∧
    (∀ a : ℕ, a + 1 < x.length →
      (_update rate gen x c).1[a + 1]? = some (smoothRow rate (x.getD a []))) ∧
    (∀ (row : List ℚ) (s : ℕ), s < row.length →
      (smoothRow rate row)[s]? =
        some (rate / 2 * (row.getD s 0 + if s = 0 then 0 else row.getD (s - 1) 0))) ∧
    (∀ y : Snapshot, y ≠ [] →
      (roll1 y)[0]? = y.getLast? ∧
      ∀ b : ℕ, b + 1 < y.length → (roll1 y)[b + 1]? = y[b]?) := by
  refine ⟨rfl, ?_, ?_, fun a ha => update_row_succ rate gen x c a ha,
    fun row s hs => smoothRow_entry rate row s hs,
    fun y hy => ⟨roll1_head y hy, fun b hb => roll1_tail y b hb⟩⟩
  · rw [_update]
    simp only [setRow0_length, roll1_length, convolveSame, List.length_map]
  · rw [_update]
    refine setRow0_head _ _ ?_
    intro he
    have : (roll1 (convolveSame rate x)).length = 0 := by rw [he]; rfl
    rw [roll1_length] at this
    simp only [convolveSame, List.length_map] at this
    exact hx (List.length_eq_zero.mp this)

/-- Witness for C6 at a concrete snapshot and generator. -/
theorem update_full_spec_witness :
    (_update (1/2) (fun _ => [1, 1, 1]) [[1, 2, 3], [4, 5, 6], [7, 8, 9]] 0).2 = 0 + 1 ∧
    (_update (1/2) (fun _ => [1, 1, 1]) [[1, 2, 3], [4, 5, 6], [7, 8, 9]] 0).1.length =
      ([[1, 2, 3], [4, 5, 6], [7, 8, 9]] : Snapshot).length ∧
    (_update (1/2) (fun _ => [1, 1, 1]) [[1, 2, 3], [4, 5, 6], [7, 8, 9]] 0).1[0]? =
      some ((fun _ => [1, 1, 1]) 0) ∧
    (∀ a : ℕ, a + 1 < ([[1, 2, 3], [4, 5, 6], [7, 8, 9]] : Snapshot).length →
      (_update (1/2) (fun _ => [1, 1, 1]) [[1, 2, 3], [4, 5, 6], [7, 8, 9]] 0).1[a + 1]? =
        some (smoothRow (1/2) (([[1, 2, 3], [4, 5, 6], [7, 8, 9]] : Snapshot).getD a []))) ∧
    (∀ (row : List ℚ) (s : ℕ), s < row.length →
      (smoothRow (1/2) row)[s]? =
        some ((1:ℚ)/2 / 2 * (row.getD s 0 + if s = 0 then 0 else row.getD (s - 1) 0))) ∧
    (∀ y : Snapshot, y ≠ [] →
      (roll1 y)[0]? = y.getLast? ∧
      ∀ b : ℕ, b + 1 < y.length → (roll1 y)[b + 1]? = y[b]?) :=
  update_full_spec (1/2) (fun _ => [1, 1, 1]) [[1, 2, 3], [4, 5, 6], [7, 8, 9]] 0
    (by decide)

/-- Claim C9: `reset` sets `time` to 0 and clears `state` and `state_`,
while leaving every other attribute — `initial_state`, the boundary
generator and its consumption position, `r_in`, `r_out`, `num_anulus`,
`num_segments`, `total_convolve_rate` — exactly as before. -/
theorem reset_frame (d : DiskPropagation) :
    (reset d).time = 0 ∧ (reset d).state = none ∧ (reset d).state_ = none ∧
    (reset d).initial_state = d.initial_state ∧
    (reset d).gen = d.gen ∧ (reset d).cursor = d.cursor ∧
    (reset d).r_in = d.r_in ∧ (reset d).r_out = d.r_out ∧
    (reset d).num_anulus = d.num_anulus ∧
    (reset d).num_segments = d.num_segments ∧
    (reset d).total_convolve_rate = d.total_convolve_rate :=
  ⟨rfl, rfl, rfl, rfl, rfl, rfl, rfl, rfl, rfl, rfl, rfl⟩

/-- `getD` at an in-range index is a member of the list. -/
theorem getD_mem_of_lt {α : Type} (l : List α) (dflt : α) (i : ℕ)
    (hi : i < l.length) : l.getD i dflt ∈ l := by
  rw [List.getD_eq_getElem?_getD, List.getElem?_eq_getElem hi]
  exact List.getElem_mem hi

/-- Pointwise description of `rowMul` on equally long rows. -/
theorem rowMul_getD (r m : List ℚ) (hrm : r.length = m.length) (s : ℕ) :
    (rowMul r m).getD s 0 = r.getD s 0 * m.getD s 0 := by
  induction r generalizing m s with
  | nil =>
    have hm : m = [] := List.length_eq_zero.mp (by simpa using hrm.symm)
    subst hm
    simp [rowMul]
  | cons a r ih =>
    cases m with
    | nil => simp at hrm
    | cons b m =>
      cases s with
      | zero => simp [rowMul]
      | succ s =>
        have := ih m (by simpa using hrm) s
        simpa [rowMul] using this

/-- Rowwise description of `snapMul` on equally long snapshots. -/
theorem snapMul_getD (x m : Snapshot) (hx : x.length = m.length) (a : ℕ) :
    (snapMul x m).getD a [] = rowMul (x.getD a []) (m.getD a []) := by
  induction x generalizing m a with
  | nil =>
    have hm : m = [] := List.length_eq_zero.mp (by simpa using hx.symm)
    subst hm
    simp [snapMul, rowMul]
  | cons r x ih =>
    cases m with
    | nil => simp at hx
    | cons mr m =>
      cases a with
      | zero => simp [snapMul]
      | succ a =>
        have := ih m (by simpa using hx) a
        simpa [snapMul] using this

/-- The mask has `A` rows. -/
theorem trim_matrix_length (A S : ℕ) : (trim_matrix A S).length = A := by
  simp [trim_matrix]

/-- Every mask row has `S` entries. -/
theorem trim_matrix_row_length (A S : ℕ) (r : SegVec) (hr : r ∈ trim_matrix A S) :
    r.length = S := by
  rw [trim_matrix, List.mem_map] at hr
  obtain ⟨a, _, ha⟩ := hr
  rw [← ha]
  simp

/-- Entry `(a, s)` of the upper-triangular mask. -/
theorem trim_matrix_entry (A S a s : ℕ) :
    ((trim_matrix A S).getD a []).getD s 0 =
      if a < A ∧ s < S ∧ a ≤ s then 1 else 0 := by
  rcases Nat.lt_or_ge a A with ha | ha
  · have hrow : (trim_matrix A S).getD a [] =
        (List.range S).map (fun j => if a ≤ j then (1 : ℚ) else 0) := by
      rw [trim_matrix, List.getD_eq_getElem?_getD, List.getElem?_map,
        List.getElem?_range ha]
      rfl
    rw [hrow]
    rcases Nat.lt_or_ge s S with hs | hs
    · rw [List.getD_eq_getElem?_getD, List.getElem?_map, List.getElem?_range hs]
      by_cases hle : a ≤ s
      · rw [if_pos ⟨ha, hs, hle⟩]
        simp [hle]
      · rw [if_neg (by omega)]
        simp [hle]
    · rw [List.getD_eq_getElem?_getD, List.getElem?_eq_none (by simpa using hs),
        if_neg (by omega)]
      rfl
  · have hrow : (trim_matrix A S).getD a [] = ([] : SegVec) := by
      rw [List.getD_eq_getElem?_getD,
        List.getElem?_eq_none (by rw [trim_matrix_length]; exact ha)]
      rfl
    rw [hrow, if_neg (by omega)]
    rfl

/-- Out-of-range entries of a well-shaped snapshot default to 0. -/
theorem snapEntry_out (A S : ℕ) (x : Snapshot) (hx : snapShape A S x) (a s : ℕ)
    (h : A ≤ a ∨ S ≤ s) : snapEntry x a s = 0 := by
  rcases Nat.lt_or_ge a A with ha | ha
  · have hrow : (x.getD a []).length = S :=
      hx.2 _ (getD_mem_of_lt x [] a (by rw [hx.1]; exact ha))
    have hs : S ≤ s := by
      rcases h with h | h
      · omega
      · exact h
    rw [snapEntry, List.getD_eq_getElem?_getD (x.getD a []),
      List.getElem?_eq_none (by omega)]
    rfl
  · rw [snapEntry, List.getD_eq_getElem?_getD x,
      List.getElem?_eq_none (by have := hx.1; omega)]
    rfl

/-- Entry `(a, s)` of a masked snapshot is the original entry times the
mask entry. -/
theorem snapMul_trim_entry (A S : ℕ) (x : Snapshot) (hx : snapShape A S x)
    (a s : ℕ) :
    snapEntry (snapMul x (trim_matrix A S)) a s =
      snapEntry x a s * (if a < A ∧ s < S ∧ a ≤ s then 1 else 0) := by
  rw [snapEntry, snapMul_getD x _ (by rw [trim_matrix_length]; exact hx.1)]
  rw [rowMul_getD _ _ ?hlen, trim_matrix_entry]
  · rfl
  case hlen =>
    rcases Nat.lt_or_ge a A with ha | ha
    · have h1 : (x.getD a []).length = S :=
        hx.2 _ (getD_mem_of_lt x [] a (by rw [hx.1]; exact ha))
      have h2 : ((trim_matrix A S).getD a []).length = S :=
        trim_matrix_row_length A S _
          (getD_mem_of_lt _ [] a (by rw [trim_matrix_length]; exact ha))
      rw [h1, h2]
    · rw [List.getD_eq_getElem?_getD x,
        List.getElem?_eq_none (by have := hx.1; omega),
        List.getD_eq_getElem?_getD (trim_matrix A S),
        List.getElem?_eq_none (by rw [trim_matrix_length]; omega)]

/-- A masked well-shaped snapshot is well-shaped. -/
theorem snapMul_trim_shape (A S : ℕ) (x : Snapshot) (hx : snapShape A S x) :
    snapShape A S (snapMul x (trim_matrix A S)) := by
  constructor
  · rw [snapMul, List.length_map, List.length_zip, trim_matrix_length, hx.1]
    omega
  · intro r hr
    rw [snapMul, List.mem_map] at hr
    obtain ⟨⟨r1, r2⟩, hmem, he⟩ := hr
    obtain ⟨h1, h2⟩ := List.of_mem_zip hmem
    rw [← he, rowMul, List.length_map, List.length_zip, hx.2 r1 h1,
      trim_matrix_row_length A S r2 h2]
    omega

/-- Slicewise description of `_extract_state`. -/
theorem extract_state_getD (A S : ℕ) (st : List Snapshot) (t : ℕ)
    (ht : t < st.length) :
    (_extract_state A S st).getD t [] = snapMul (st.getD t []) (trim_matrix A S) := by
  rw [_extract_state, List.getD_eq_getElem?_getD, List.getElem?_map,
    List.getElem?_eq_getElem ht, List.getD_eq_getElem?_getD st,
    List.getElem?_eq_getElem ht]
  rfl

/-- Every slice of the freshly allocated, seeded history is well-shaped
(provided the generator and any stored `initial_state` honor the shape
contract). -/
theorem seeded_shape (d : DiskPropagation) (n : ℤ)
    (hgen : ∀ c, (d.gen c).length = d.num_segments.toNat)
    (hinit : ∀ s0, d.initial_state = some s0 →
      snapShape d.num_anulus.toNat d.num_segments.toNat s0) :
    ∀ x ∈ (zerosState (n + 1).toNat d.num_anulus.toNat d.num_segments.toNat).set 0
        (seedPair d).1,
      snapShape d.num_anulus.toNat d.num_segments.toNat x := by
  intro x hx
  cases List.mem_or_eq_of_mem_set hx with
  | inl hmem =>
    rw [zerosState] at hmem
    rw [List.eq_of_mem_replicate hmem]
    refine ⟨by simp, ?_⟩
    intro r hr
    rw [List.eq_of_mem_replicate hr]
    simp
  | inr heq =>
    rw [heq]
    cases hin : d.initial_state with
    | some s0 =>
      have hsp : seedPair d = (s0, d.cursor) := by
        simp only [seedPair, hin]
      rw [hsp]
      exact hinit s0 hin
    | none =>
      have hsp : seedPair d =
          (List.replicate d.num_anulus.toNat (d.gen d.cursor), d.cursor + 1) := by
        simp only [seedPair, hin]
      rw [hsp]
      refine ⟨by simp, ?_⟩
      intro r hr
      rw [List.eq_of_mem_replicate hr]
      exact hgen d.cursor

/-- An entry of a history is the entry of the selected slice. -/
theorem entryAt_eq (st : List Snapshot) (t a s : ℕ) :
    entryAt st t a s = snapEntry (st.getD t []) a s := rfl

/-- Entries of the empty snapshot default to 0. -/
theorem snapEntry_nil (a s : ℕ) : snapEntry ([] : Snapshot) a s = 0 := rfl

/-- Claim C4: after every completed `run_simulation` call, the
observed-state array `state_` has the same shape as the history array
`state`, and for every timestep `t` and indices `(a, s)`:
`state_[t,a,s] = 0` when `a > s`, and `state_[t,a,s] = state[t,a,s]`
when `a ≤ s`. -/
theorem observed_state_mask (d d' : DiskPropagation) (n fv : ℤ)
    (hgen : ∀ c, (d.gen c).length = d.num_segments.toNat)
    (hinit : ∀ s0, d.initial_state = some s0 →
      snapShape d.num_anulus.toNat d.num_segments.toNat s0)
    (h : run_simulation d n fv = some d') :
    ∃ st st2, d'.state = some st ∧ d'.state_ = some st2 ∧
      st2.length = st.length ∧
      (∀ (t : ℕ) (x : Snapshot), st[t]? = some x →
        snapShape d.num_anulus.toNat d.num_segments.toNat x) ∧
      (∀ (t : ℕ) (y : Snapshot), st2[t]? = some y →
        snapShape d.num_anulus.toNat d.num_segments.toNat y) ∧
      (∀ t a s : ℕ, s < a → entryAt st2 t a s = 0) ∧
      (∀ t a s : ℕ, a ≤ s → entryAt st2 t a s = entryAt st t a s) := by
  obtain ⟨stF, hloop, hstate, hstate_, _, _, _, _, _, _, _, _, _, _⟩ :=
    run_simulation_some d n fv d' h
  have hshape : ∀ x ∈ stF, snapShape d.num_anulus.toNat d.num_segments.toNat x :=
    runLoop_shape d.total_convolve_rate d.gen fv _ _ hgen _ _ _ _ _ _ _ hloop
      (seeded_shape d n hgen hinit)
  refine ⟨stF, _extract_state d.num_anulus.toNat d.num_segments.toNat stF,
    hstate, hstate_, by rw [_extract_state, List.length_map], ?_, ?_, ?_, ?_⟩
  · intro t x hx
    exact hshape x (List.getElem?_mem hx)
  · intro t y hy
    rw [_extract_state, List.getElem?_map] at hy
    cases hx : stF[t]? with
    | none => rw [hx] at hy; exact absurd hy (by simp)
    | some x =>
      rw [hx] at hy
      simp only [Option.map_some', Option.some.injEq] at hy
      rw [← hy]
      exact snapMul_trim_shape _ _ x (hshape x (List.getElem?_mem hx))
  · intro t a s hsa
    rcases Nat.lt_or_ge t stF.length with ht | ht
    · rw [entryAt_eq, extract_state_getD _ _ stF t ht,
        snapMul_trim_entry _ _ _ (hshape _ (getD_mem_of_lt stF [] t ht)),
        if_neg (by omega), mul_zero]
    · rw [entryAt_eq, List.getD_eq_getElem?_getD,
        List.getElem?_eq_none (by rw [_extract_state, List.length_map]; omega)]
      exact snapEntry_nil a s
  · intro t a s has
    rcases Nat.lt_or_ge t stF.length with ht | ht
    · have hsl : snapShape d.num_anulus.toNat d.num_segments.toNat (stF.getD t []) :=
        hshape _ (getD_mem_of_lt stF [] t ht)
      rw [entryAt_eq, extract_state_getD _ _ stF t ht, snapMul_trim_entry _ _ _ hsl,
        entryAt_eq]
      by_cases hin : a < d.num_anulus.toNat ∧ s < d.num_segments.toNat
      · rw [if_pos ⟨hin.1, hin.2, has⟩, mul_one]
      · rw [if_neg (by tauto), mul_zero,
          snapEntry_out _ _ _ hsl a s (by omega)]
    · rw [entryAt_eq, entryAt_eq, List.getD_eq_getElem?_getD,
        List.getElem?_eq_none (by rw [_extract_state, List.length_map]; omega),
        List.getD_eq_getElem?_getD stF, List.getElem?_eq_none (by omega)]

/-- The result of the scenario run `run_simulation(1)` on `demoDisk`. -/
def demoDisk1 : DiskPropagation := (run_simulation demoDisk 1 1).getD demoDisk

/-- Witness for C4 on the concrete scenario run. -/
theorem observed_state_mask_witness :
    ∃ st st2, demoDisk1.state = some st ∧ demoDisk1.state_ = some st2 ∧
      st2.length = st.length ∧
      (∀ (t : ℕ) (x : Snapshot), st[t]? = some x →
        snapShape demoDisk.num_anulus.toNat demoDisk.num_segments.toNat x) ∧
      (∀ (t : ℕ) (y : Snapshot), st2[t]? = some y →
        snapShape demoDisk.num_anulus.toNat demoDisk.num_segments.toNat y) ∧
      (∀ t a s : ℕ, s < a → entryAt st2 t a s = 0) ∧
      (∀ t a s : ℕ, a ≤ s → entryAt st2 t a s = entryAt st t a s) :=
  observed_state_mask demoDisk demoDisk1 1 1 (fun _ => rfl)
    (fun s0 hs0 => nomatch hs0) (by rfl)

/-- Claim C8: for every `num_steps ≥ 0`, a completed
`run_simulation(num_steps, flow_velocity)` call leaves a history with
exactly `num_steps + 1` slices, each of shape
`(num_anulus, num_segments)`; `num_steps = 0` yields a history of
length 1 holding only the seed snapshot, with the observed state still
derived from it. -/
theorem history_length (d d' : DiskPropagation) (n fv : ℤ) (hn : 0 ≤ n)
    (hgen : ∀ c, (d.gen c).length = d.num_segments.toNat)
    (hinit : ∀ s0, d.initial_state = some s0 →
      snapShape d.num_anulus.toNat d.num_segments.toNat s0)
    (h : run_simulation d n fv = some d') :
    ∃ st, d'.state = some st ∧ st.length = n.toNat + 1 ∧
      (∀ (t : ℕ) (x : Snapshot), st[t]? = some x →
        snapShape d.num_anulus.toNat d.num_segments.toNat x) ∧
      d'.state_ = some (_extract_state d.num_anulus.toNat d.num_segments.toNat st) ∧
      (n = 0 → st = [(seedPair d).1]) := by
  obtain ⟨stF, hloop, hstate, hstate_, _, _, _, _, _, _, _, _, _, _⟩ :=
    run_simulation_some d n fv d' h
  have hshape : ∀ x ∈ stF, snapShape d.num_anulus.toNat d.num_segments.toNat x :=
    runLoop_shape d.total_convolve_rate d.gen fv _ _ hgen _ _ _ _ _ _ _ hloop
      (seeded_shape d n hgen hinit)
  obtain ⟨_, _, hlen, _, _⟩ := runLoop_spec _ _ _ _ _ _ _ _ _ _ hloop
  refine ⟨stF, hstate, ?_, fun t x hx => hshape x (List.getElem?_mem hx), hstate_, ?_⟩
  · rw [hlen, List.length_set, zerosState, List.length_replicate]
    omega
  · intro h0
    subst h0
    simp only [Int.toNat_zero, runLoop, Option.some.injEq, Prod.mk.injEq] at hloop
    rw [← hloop.1]
    simp [zerosState]

/-- Witness for C8 on the concrete scenario run. -/
theorem history_length_witness :
    ∃ st, demoDisk1.state = some st ∧ st.length = (1 : ℤ).toNat + 1 ∧
      (∀ (t : ℕ) (x : Snapshot), st[t]? = some x →
        snapShape demoDisk.num_anulus.toNat demoDisk.num_segments.toNat x) ∧
      demoDisk1.state_ =
        some (_extract_state demoDisk.num_anulus.toNat demoDisk.num_segments.toNat st) ∧
      ((1 : ℤ) = 0 → st = [(seedPair demoDisk).1]) :=
  history_length demoDisk demoDisk1 1 1 (by decide) (fun _ => rfl)
    (fun s0 hs0 => nomatch hs0) (by rfl)

/-- Claim C1 (amended): `run_simulation` does not reinitialize `time`;
a completed call advances `time` by exactly `num_steps`, so `time` ends
at `num_steps` exactly when it was 0 at entry (as after construction,
initialization or reset). -/
theorem run_simulation_time (d d' : DiskPropagation) (n fv : ℤ)
    (h : run_simulation d n fv = some d') :
    d'.time = d.time + n.toNat ∧ (d.time = 0 → d'.time = n.toNat) := by
  obtain ⟨stF, hloop, _, _, _, _, _, _, _, _, _, _, _, _⟩ :=
    run_simulation_some d n fv d' h
  obtain ⟨ht, _, _, _, _⟩ := runLoop_spec _ _ _ _ _ _ _ _ _ _ hloop
  exact ⟨ht, fun h0 => by rw [ht, h0, Nat.zero_add]⟩

/-- Witness for the amended C1 on the concrete scenario run. -/
theorem run_simulation_time_witness :
    demoDisk1.time = demoDisk.time + (1 : ℤ).toNat ∧
    (demoDisk.time = 0 → demoDisk1.time = (1 : ℤ).toNat) :=
  run_simulation_time demoDisk demoDisk1 1 1 (by rfl)

/-- Claim C1 counterexample: after `run_simulation(1)` has left
`time = 1`, a second `run_simulation(0)` call (no reset in between)
returns with `time = 1`, not the claimed `num_steps = 0` — the call
does not reinitialize `time` to 0 before advancing. -/
theorem run_simulation_time_counterexample :
    ((run_simulation demoDisk 1 1).bind (fun d1 => run_simulation d1 0 1)).map
        DiskPropagation.time = some 1 ∧
    (some 1 : Option ℕ) ≠ some 0 :=
  ⟨by decide, by decide⟩

/-- Claim C5: per recorded step exactly
`stepApps flow_velocity = 1 + max(flow_velocity - 1, 0)` applications
of `_update` happen (so `flow_velocity = 0` and `flow_velocity = 1`
both give exactly one), the snapshot stored in the history for the step
is the result of the last of these chained applications, intermediate
sub-step results are not retained, and the cursor accounting reflects
exactly that many pulls per step. -/
theorem substep_semantics (d d' : DiskPropagation) (n fv : ℤ)
    (h : run_simulation d n fv = some d') :
    (stepApps fv : ℤ) = 1 + max (fv - 1) 0 ∧
    d'.cursor = (seedPair d).2 + n.toNat * stepApps fv ∧
    ∃ st, d'.state = some st ∧ st.length = (n + 1).toNat ∧
      ∀ j : ℕ, j < n.toNat → ∃ x : Snapshot, st[d.time + j]? = some x ∧
        st[d.time + j + 1]? =
          some (((updStep d.total_convolve_rate d.gen)^[stepApps fv]
            (x, (seedPair d).2 + j * stepApps fv)).1) := by
  obtain ⟨stF, hloop, hstate, _, _, _, _, _, _, _, _, _, _, _⟩ :=
    run_simulation_some d n fv d' h
  obtain ⟨_, hc, hlen, _, hsteps⟩ := runLoop_spec _ _ _ _ _ _ _ _ _ _ hloop
  refine ⟨?_, hc, stF, hstate, ?_, hsteps⟩
  · rw [stepApps]
    push_cast
    rw [Int.toNat_eq_max]
  · rw [hlen, List.length_set, zerosState, List.length_replicate]

/-- The result of the scenario run with `flow_velocity = 2`,
`num_steps = 1`. -/
def demoDisk1v2 : DiskPropagation := (run_simulation demoDisk 1 2).getD demoDisk

/-- Witness for C5: the `flow_velocity = 2`, `num_steps = 1` scenario
(two applications, one extra stored snapshot). -/
theorem substep_semantics_witness :
    (stepApps 2 : ℤ) = 1 + max (2 - 1) 0 ∧
    demoDisk1v2.cursor = (seedPair demoDisk).2 + (1 : ℤ).toNat * stepApps 2 ∧
    ∃ st, demoDisk1v2.state = some st ∧ st.length = ((1 : ℤ) + 1).toNat ∧
      ∀ j : ℕ, j < (1 : ℤ).toNat → ∃ x : Snapshot, st[demoDisk.time + j]? = some x ∧
        st[demoDisk.time + j + 1]? =
          some (((updStep demoDisk.total_convolve_rate demoDisk.gen)^[stepApps 2]
            (x, (seedPair demoDisk).2 + j * stepApps 2)).1) :=
  substep_semantics demoDisk demoDisk1v2 1 2 (by rfl)

/-- Claim C10: when `initial_state` is unset, `run_simulation` seeds
the full initial snapshot by broadcasting a single generator pull: the
seed is `num_anulus` identical copies of the pulled segment vector,
exactly one pull is consumed by seeding (the cursor moves from
`cursor` to `cursor + 1` before the step loop), and every annulus row
of `history[0]` equals the pulled vector. -/
theorem seed_broadcast (d d' : DiskPropagation) (n fv : ℤ)
    (hinit : d.initial_state = none)
    (h : run_simulation d n fv = some d') :
    (seedPair d).1 = List.replicate d.num_anulus.toNat (d.gen d.cursor) ∧
    (seedPair d).2 = d.cursor + 1 ∧
    d'.cursor = (d.cursor + 1) + n.toNat * stepApps fv ∧
    ∃ st, d'.state = some st ∧
      st[0]? = some (List.replicate d.num_anulus.toNat (d.gen d.cursor)) ∧
      ∀ a : ℕ, a < d.num_anulus.toNat →
        (st.getD 0 []).getD a [] = d.gen d.cursor := by
  have hsp : seedPair d =
      (List.replicate d.num_anulus.toNat (d.gen d.cursor), d.cursor + 1) := by
    simp only [seedPair, hinit]
  obtain ⟨stF, hloop, hstate, _, _, hne, _, _, _, _, _, _, _, _⟩ :=
    run_simulation_some d n fv d' h
  obtain ⟨_, hc, _, hframe, _⟩ := runLoop_spec _ _ _ _ _ _ _ _ _ _ hloop
  have hseed0 : stF[0]? = some (seedPair d).1 := by
    rw [hframe 0 (Nat.zero_le _), List.getElem?_set_self]
    rw [zerosState, List.length_replicate]
    omega
  refine ⟨by rw [hsp], by rw [hsp], ?_, stF, hstate, ?_, ?_⟩
  · rw [hc, hsp]
  · rw [hseed0, hsp]
  · intro a ha
    have hgd : stF.getD 0 [] = List.replicate d.num_anulus.toNat (d.gen d.cursor) := by
      rw [List.getD_eq_getElem?_getD, hseed0, hsp]
      rfl
    rw [hgd, List.getD_eq_getElem?_getD, List.getElem?_replicate_of_lt ha]
    rfl

/-- Witness for C10 on the concrete scenario run (no prior
initialization, so the seed comes from the boundary source). -/
theorem seed_broadcast_witness :
    (seedPair demoDisk).1 =
      List.replicate demoDisk.num_anulus.toNat (demoDisk.gen demoDisk.cursor) ∧
    (seedPair demoDisk).2 = demoDisk.cursor + 1 ∧
    demoDisk1.cursor = (demoDisk.cursor + 1) + (1 : ℤ).toNat * stepApps 1 ∧
    ∃ st, demoDisk1.state = some st ∧
      st[0]? =
        some (List.replicate demoDisk.num_anulus.toNat (demoDisk.gen demoDisk.cursor)) ∧
      ∀ a : ℕ, a < demoDisk.num_anulus.toNat →
        (st.getD 0 []).getD a [] = demoDisk.gen demoDisk.cursor :=
  seed_broadcast demoDisk demoDisk1 1 1 rfl (by rfl)

/-- Claim C7: after a completed `initDisk` call (the embedding of the
Python `initialize` method), `time` is 0 and `initial_state` holds the
last snapshot of the warm-up `run_simulation(num_anulus)` run; every
subsequent completed `run_simulation` call seeds `history[0]` with
exactly that stored snapshot, and the n later steps never touch it. -/
theorem init_then_run (d d2 : DiskPropagation) (f : ℤ → ℕ → SegVec)
    (h : initDisk d f = some d2) :
    d2.time = 0 ∧
    (∃ dw stw, run_simulation { d with gen := f d.num_segments, cursor := 0 }
        d.num_anulus 1 = some dw ∧ dw.state = some stw ∧
        d2.initial_state = stw.getLast?) ∧
    (∀ (n fv : ℤ) (d3 : DiskPropagation) (st3 : List Snapshot),
      run_simulation d2 n fv = some d3 → d3.state = some st3 →
      st3[0]? = d2.initial_state) := by
  simp only [initDisk] at h
  split at h
  · exact absurd h (by simp)
  · rename_i dw hw
    split at h
    · exact absurd h (by simp)
    · rename_i stw hstw
      split at h
      · exact absurd h (by simp)
      · rename_i lastw hlastw
        simp only [Option.some.injEq] at h
        subst h
        refine ⟨rfl, ⟨dw, stw, hw, hstw, by rw [hlastw]⟩, ?_⟩
        intro n fv d3 st3 hrun3 hst3
        obtain ⟨stF, hloop, hstate, _, _, hne, _, _, _, _, _, _, _, _⟩ :=
          run_simulation_some _ n fv d3 hrun3
        obtain ⟨_, _, _, hframe, _⟩ := runLoop_spec _ _ _ _ _ _ _ _ _ _ hloop
        have hst3F : st3 = stF := by
          rw [hstate] at hst3
          exact (Option.some.injEq _ _ ▸ hst3.symm :)
        have hseed0 : stF[0]? =
            some (seedPair { dw with initial_state := some lastw, time := 0 }).1 := by
          rw [hframe 0 (Nat.zero_le _), List.getElem?_set_self]
          rw [zerosState, List.length_replicate]
          omega
        rw [hst3F, hseed0]
        simp only [seedPair]

/-- The base instance used for the C7 witness (its initially attached
source is irrelevant: `initDisk` replaces it via the factory). -/
def demoBase : DiskPropagation := construct 1 3 0 (fun _ => [0, 0, 0])

/-- The boundary-source factory used for the C7 witness. -/
def demoFactory : ℤ → ℕ → SegVec := fun _ => fun _ => [1, 1, 1]

/-- The initialized instance for the C7 witness. -/
def demoInit : DiskPropagation :=
  (initDisk demoBase demoFactory).getD demoBase

/-- Witness for C7 on a concrete initialization. -/
theorem init_then_run_witness :
    demoInit.time = 0 ∧
    (∃ dw stw, run_simulation
        { demoBase with gen := demoFactory demoBase.num_segments, cursor := 0 }
        demoBase.num_anulus 1 = some dw ∧ dw.state = some stw ∧
        demoInit.initial_state = stw.getLast?) ∧
    (∀ (n fv : ℤ) (d3 : DiskPropagation) (st3 : List Snapshot),
      run_simulation demoInit n fv = some d3 → d3.state = some st3 →
      st3[0]? = demoInit.initial_state) :=
  init_then_run demoBase demoInit demoFactory (by rfl)

/-- Claim C3 counterexample: a `run_simulation` call with
`flow_velocity = 0` is not rejected — it silently completes. -/
theorem no_validation_counterexample :
    (run_simulation demoDisk 1 0).isSome = true := by decide

/-- Claim C3 (amended): `run_simulation` performs no parameter
validation.  Any `flow_velocity ≤ 1` (in particular every
`flow_velocity ≤ 0`) behaves exactly like `flow_velocity = 1` — one
update per recorded step, silently completing whenever the
`flow_velocity = 1` call does — while `num_steps < 0` makes the call
fail with a numpy error during or after allocation of the history
array (an `IndexError` at the seeding write for `num_steps = -1`, a
`ValueError` at allocation for `num_steps ≤ -2`), not with a
pre-allocation rejection. -/
theorem no_validation (d : DiskPropagation) (n fv : ℤ) :
    (n < 0 → run_simulation d n fv = none) ∧
    (fv ≤ 1 → run_simulation d n fv = run_simulation d n 1) := by
  constructor
  · intro hn
    rw [run_simulation]
    by_cases hg : n + 1 < 0 ∨ d.num_anulus < 0 ∨ d.num_segments < 0
    · rw [if_pos hg]
    · rw [if_neg hg, if_pos (by omega)]
  · intro hfv
    have hsa : stepApps fv = stepApps 1 := by
      rw [stepApps, stepApps]
      congr 1
      omega
    simp only [run_simulation, runLoop_congr d.total_convolve_rate d.gen fv 1 hsa]

/-- Witness for the amended C3: a negative-step call fails, and a
`flow_velocity = 0` call coincides with the `flow_velocity = 1` call. -/
theorem no_validation_witness :
    run_simulation demoDisk (-1) 0 = none ∧
    run_simulation demoDisk 1 0 = run_simulation demoDisk 1 1 :=
  ⟨(no_validation demoDisk (-1) 0).1 (by decide),
   (no_validation demoDisk 1 0).2 (by decide)⟩

/-- Claim C2 counterexample: in the scenario (`r_in = 1`, `r_out = 3`,
rate 0, constant boundary source `[1,1,1]`, no prior initialization),
`history[1]` after `run_simulation(1)` is NOT the shifted seed plus a
fresh boundary row: annulus 1 holds `[0,0,0]` (zeroed), not the seed
row `[1,1,1]` the claim predicts. -/
theorem rate_zero_counterexample :
    ((run_simulation demoDisk 1 1).bind DiskPropagation.state).map
        (fun st => st.getD 1 []) =
      some [[1, 1, 1], [0, 0, 0], [0, 0, 0]] ∧
    ([[1, 1, 1], [0, 0, 0], [0, 0, 0]] : Snapshot) ≠
      [[1, 1, 1], [1, 1, 1], [1, 1, 1]] :=
  ⟨by decide, by decide⟩

/-- Claim C2 (amended): with `total_convolve_rate = 0` the smoothing
stage is not a no-op — the kernel `[rate/2, rate/2] = [0, 0]` zeroes
every annulus before the shift — so after `run_simulation(1)` the
snapshot `history[1]` has annulus 0 equal to the fresh boundary pull
`[1,1,1]` and every other annulus zeroed: the seed rows do not survive
the smoothing stage. -/
theorem rate_zero_step :
    (run_simulation demoDisk 1 1).bind DiskPropagation.state =
      some [[[1, 1, 1], [1, 1, 1], [1, 1, 1]],
            [[1, 1, 1], [0, 0, 0], [0, 0, 0]]] := by decide

